import Mathlib

/-!
Verification of the LiveScribe real-time transcription client.

Strings from the TypeScript source are modelled as `List Char` (JavaScript
strings indexed by code unit; all constants involved are ASCII).  Floating
point sample values are modelled as exact rationals.  Each definition below
is a direct translation of a function or code block of the repository,
cited by file and line in its doc comment.
-/

set_option maxRecDepth 4000

namespace LiveScribe

/-- JS `String.prototype.toLowerCase`, per character (ASCII). -/
def lowerStr (s : List Char) : List Char := s.map Char.toLower

/-- JS `String.prototype.trim`: drop leading and trailing whitespace. -/
def trimStr (s : List Char) : List Char :=
  ((s.dropWhile Char.isWhitespace).reverse.dropWhile Char.isWhitespace).reverse

/-- JS `s.slice(-n)`: the last `n` characters (the whole string when it is
shorter than `n`). -/
def takeLast (n : Nat) (s : List Char) : List Char := s.drop (s.length - n)

/-- JS `s.slice(a, b)` for `0 ≤ a ≤ b`. -/
def sliceStr (s : List Char) (a b : Nat) : List Char := (s.take b).drop a

/-- JS `hay.includes(needle)`: contiguous substring test. -/
def containsSub (needle : List Char) : List Char → Bool
  | [] => needle.isPrefixOf ([] : List Char)
  | c :: rest => needle.isPrefixOf (c :: rest) || containsSub needle rest

/-- JS `s.split(/\s+/).filter(Boolean)`: whitespace-separated words,
empty pieces removed.  (`Home.tsx` line 128.) -/
def wordsOf (s : List Char) : List (List Char) :=
  (s.splitOnP Char.isWhitespace).filter (fun w => w ≠ [])

/-- Word 3-grams, each window joined with single spaces
(`Home.tsx` lines 130–134: `incomingWords.slice(i, i + 3).join(" ")`). -/
def ngrams3 : List (List Char) → List (List Char)
  | w1 :: w2 :: w3 :: rest =>
      (w1 ++ ' ' :: w2 ++ ' ' :: w3) :: ngrams3 (w2 :: w3 :: rest)
  | _ => []

/-- Number of 3-grams that occur in the tail
(`Home.tsx` lines 135–138: `if (tailLower.includes(ng)) matched++`). -/
def matchedCount (tailLower : List Char) (ngrams : List (List Char)) : Nat :=
  (ngrams.filter (fun g => containsSub g tailLower)).length

/-- An upward scan that keeps the last index in `[0, m]` satisfying `q`
(hence the largest one); `0` when none does.  Models a JS
`for (let len = ...; len <= m; len++) if (q(len)) best = len` loop. -/
def pickLast (q : Nat → Bool) (m : Nat) : Nat :=
  (List.range (m + 1)).foldl (fun best len => if q len then len else best) 0

/-- `Home.tsx` lines 142–149: the longest `len ∈ [5, min(|tail|, |newText|)]`
such that the length-`len` suffix of the (lowercased) tail is a prefix of the
(lowercased) incoming fragment; `0` when there is none. -/
def bestOverlap (tailLower incomingLower : List Char) : Nat :=
  pickLast
    (fun len => decide (5 ≤ len) && (takeLast len tailLower).isPrefixOf incomingLower)
    (min tailLower.length incomingLower.length)

/-- `Home.tsx` lines 142–155: strip the best suffix/prefix overlap from the
fragment, then append the trimmed remainder, inserting one space unless the
transcript already ends with a space or the remainder starts with one. -/
def overlapStage (prev newText : List Char) : List Char :=
  let tailLower := lowerStr (takeLast 500 prev)
  let incomingLower := lowerStr newText
  let b := bestOverlap tailLower incomingLower
  let unique := if 0 < b then trimStr (newText.drop b) else newText
  if unique = [] then prev
  else if prev.getLastD '_' ≠ ' ' ∧ unique.headD '_' ≠ ' ' then prev ++ ' ' :: unique
  else prev ++ unique

/-- The transcript reconciler: the `setTranscript` updater of
`Home.tsx` lines 117–156 (including the guard on line 117 that skips the
update entirely when the fragment trims to nothing).
Stages: trim; first fragment; pure-repeat discard against the 500-char tail;
word-3-gram near-repeat discard; overlap merge. -/
def mergeFragment (prev frag : List Char) : List Char :=
  let newText := trimStr frag
  if newText = [] then prev
  else if prev = [] then newText
  else
    let tailLower := lowerStr (takeLast 500 prev)
    let incomingLower := lowerStr newText
    if containsSub incomingLower tailLower then prev
    else
      let ws := wordsOf incomingLower
      let ng := ngrams3 ws
      if 3 ≤ ws.length ∧ 0 < ng.length ∧ ng.length < 2 * matchedCount tailLower ng then prev
      else overlapStage prev newText

/-- `Home.tsx` line 15: the regex `/[.!?]+/` character class. -/
def isSentenceTerm (c : Char) : Bool := c = '.' || c = '!' || c = '?'

/-- `findSentenceEndings` (`Home.tsx` lines 13–21): for every maximal run of
sentence terminators, the index just past the run
(`match.index + match[0].length`). -/
def sentenceEndings (l : List Char) : List Nat :=
  ((List.range l.length).filter
    (fun i => isSentenceTerm (l.getD i ' ') && ! isSentenceTerm (l.getD (i+1) ' '))).map (· + 1)

/-- The snapshot taken by `tryClarify` (`Home.tsx` lines 58–74): the
unclarified suffix, its sentence endings, the batch cut-off `endIdx`, and the
trimmed slice `textToSend`; `none` when there are not enough sentence endings
or the slice trims to nothing (the guards on lines 62 and 68). Returns
`(absoluteStart, absoluteEnd, textToSend)`. -/
def clarifySnapshot (cur : List Char) (clarifiedUpTo count : Nat) :
    Option (Nat × Nat × List Char) :=
  let unclarified := cur.drop clarifiedUpTo
  let endings := sentenceEndings unclarified
  if endings.length < count then none
  else
    let endIdx := endings.getD (count - 1) 0
    let textToSend := trimStr (unclarified.take endIdx)
    if textToSend = [] then none
    else some (clarifiedUpTo, clarifiedUpTo + endIdx, textToSend)

/-- The `setTranscript` updater run when the clarify response arrives
(`Home.tsx` lines 86–96).  Returns the new transcript and, when the guard
passes, the new `clarifiedUpTo` value `(before + clarifiedText).length`;
`none` models the result being discarded with the cursor untouched. -/
def clarifyApply (prev : List Char) (absStart absEnd : Nat)
    (textToSend clarified : List Char) : List Char × Option Nat :=
  if trimStr (sliceStr prev absStart absEnd) ≠ textToSend then (prev, none)
  else (prev.take absStart ++ clarified ++ prev.drop absEnd,
        some ((prev.take absStart ++ clarified).length))

/-! ### Helper lemmas on the reconciler -/

/-- `pickLast` dominates every index in range satisfying `q`. -/
theorem pickLast_ge (q : Nat → Bool) (m : Nat) :
    ∀ l, l ≤ m → q l = true → l ≤ pickLast q m := by
  induction m with
  | zero =>
      intro l hl hq
      simp [pickLast, List.range_succ]
      omega
  | succ n ih =>
      intro l hl hq
      unfold pickLast at *
      rw [List.range_succ, List.foldl_append]
      simp only [List.foldl_cons, List.foldl_nil]
      by_cases hqn : q (n + 1) = true
      · rw [if_pos hqn]
        exact hl
      · rw [if_neg hqn]
        rcases Nat.lt_or_ge l (n + 1) with h | h
        · exact ih l (Nat.lt_succ_iff.mp h) hq
        · exact absurd hq (by rw [Nat.le_antisymm hl h]; exact hqn)

/-- `pickLast` is `0` or an index in range satisfying `q`. -/
theorem pickLast_zero_or (q : Nat → Bool) (m : Nat) :
    pickLast q m = 0 ∨ (q (pickLast q m) = true ∧ pickLast q m ≤ m) := by
  induction m with
  | zero => left; simp [pickLast, List.range_succ]
  | succ n ih =>
      unfold pickLast at *
      rw [List.range_succ, List.foldl_append]
      simp only [List.foldl_cons, List.foldl_nil]
      by_cases hqn : q (n + 1) = true
      · rw [if_pos hqn]
        exact Or.inr ⟨hqn, le_refl _⟩
      · rw [if_neg hqn]
        rcases ih with h | ⟨h1, h2⟩
        · exact Or.inl h
        · exact Or.inr ⟨h1, Nat.le_succ_of_le h2⟩

/-- Shape of every merge result: the previous transcript unchanged, or the
previous transcript followed by an optional single space and a non-empty
appended string. -/
theorem mergeFragment_shape (prev frag : List Char) :
    mergeFragment prev frag = prev ∨
      ∃ u, u ≠ [] ∧
        (mergeFragment prev frag = prev ++ u ∨ mergeFragment prev frag = prev ++ ' ' :: u) := by
  unfold mergeFragment overlapStage
  by_cases h1 : trimStr frag = []
  · rw [if_pos h1]; left; rfl
  · rw [if_neg h1]
    by_cases h2 : prev = []
    · rw [if_pos h2]
      right
      exact ⟨trimStr frag, h1, Or.inl (by rw [h2, List.nil_append])⟩
    · rw [if_neg h2]
      by_cases h3 : containsSub (lowerStr (trimStr frag)) (lowerStr (takeLast 500 prev)) = true
      · rw [if_pos h3]; left; rfl
      · rw [if_neg h3]
        by_cases h4 : 3 ≤ (wordsOf (lowerStr (trimStr frag))).length ∧
            0 < (ngrams3 (wordsOf (lowerStr (trimStr frag)))).length ∧
            (ngrams3 (wordsOf (lowerStr (trimStr frag)))).length <
              2 * matchedCount (lowerStr (takeLast 500 prev))
                (ngrams3 (wordsOf (lowerStr (trimStr frag))))
        · rw [if_pos h4]; left; rfl
        · rw [if_neg h4]
          set b := bestOverlap (lowerStr (takeLast 500 prev)) (lowerStr (trimStr frag)) with hb
          set unique := if 0 < b then trimStr ((trimStr frag).drop b) else trimStr frag with hu
          by_cases h5 : unique = []
          · rw [if_pos h5]; left; rfl
          · rw [if_neg h5]
            by_cases h6 : prev.getLastD '_' ≠ ' ' ∧ unique.headD '_' ≠ ' '
            · rw [if_pos h6]; right; exact ⟨unique, h5, Or.inr rfl⟩
            · rw [if_neg h6]; right; exact ⟨unique, h5, Or.inl rfl⟩

/-- The number of word 3-grams is the number of words minus two. -/
theorem ngrams3_length : ∀ ws : List (List Char), (ngrams3 ws).length = ws.length - 2
  | [] => rfl
  | [_] => rfl
  | [_, _] => rfl
  | w1 :: w2 :: w3 :: rest => by
      simp only [ngrams3, List.length_cons, ngrams3_length (w2 :: w3 :: rest)]
      omega

/-! ### Claims about the reconciler -/

/-- C2: merging a fragment whose trimmed text is, case-insensitively, a
substring of the last 500 characters of a non-empty transcript returns the
transcript unchanged (pure-repeat discard, `Home.tsx` line 126). -/
theorem c2_pure_repeat_discard (prev frag : List Char)
    (hprev : prev ≠ [])
    (hsub : containsSub (lowerStr (trimStr frag)) (lowerStr (takeLast 500 prev)) = true) :
    mergeFragment prev frag = prev := by
  unfold mergeFragment
  by_cases h1 : trimStr frag = []
  · rw [if_pos h1]
  · rw [if_neg h1, if_neg hprev, if_pos hsub]

/-- C2 witness: fragment "hello world" into a transcript ending in
"hello world" leaves it unchanged. -/
theorem c2_pure_repeat_discard_witness :
    mergeFragment ("hello world".toList) ("hello world".toList) = ("hello world".toList) :=
  c2_pure_repeat_discard ("hello world".toList) ("hello world".toList)
    (by decide) (by decide)

/-- C3: if a fragment surviving the pure-repeat check has at least three
words (hence at least one word 3-gram) and strictly more than half of its
3-grams occur in the 500-character tail, the merge returns the transcript
unchanged (`Home.tsx` lines 128–140); a fragment with fewer than three words
is never discarded by this rule and proceeds to the overlap stage. -/
theorem c3_ngram_discard (prev frag : List Char)
    (hprev : prev ≠ [])
    (hnc : containsSub (lowerStr (trimStr frag)) (lowerStr (takeLast 500 prev)) = false) :
    (3 ≤ (wordsOf (lowerStr (trimStr frag))).length →
      (ngrams3 (wordsOf (lowerStr (trimStr frag)))).length <
          2 * matchedCount (lowerStr (takeLast 500 prev))
            (ngrams3 (wordsOf (lowerStr (trimStr frag)))) →
      mergeFragment prev frag = prev)
    ∧ (trimStr frag ≠ [] → (wordsOf (lowerStr (trimStr frag))).length < 3 →
        mergeFragment prev frag = overlapStage prev (trimStr frag)) := by
  constructor
  · intro hw hmaj
    have h1 : trimStr frag ≠ [] := by
      intro h
      rw [h] at hw
      simp [lowerStr, wordsOf, List.splitOnP_nil] at hw
    have hng0 : 0 < (ngrams3 (wordsOf (lowerStr (trimStr frag)))).length := by
      rw [ngrams3_length]; omega
    unfold mergeFragment
    rw [if_neg h1, if_neg hprev, if_neg (by simp [hnc]), if_pos ⟨hw, hng0, hmaj⟩]
  · intro h1 hw
    unfold mergeFragment
    rw [if_neg h1, if_neg hprev, if_neg (by simp [hnc]),
      if_neg (by rintro ⟨h3, -, -⟩; omega)]

/-- C3 witness: fragment "the quick brown fox runs" against a transcript
ending "the quick brown fox jumps over": two of its three word 3-grams occur
in the tail, so the fragment is discarded. -/
theorem c3_ngram_discard_witness :
    mergeFragment ("the quick brown fox jumps over".toList)
        ("the quick brown fox runs".toList)
      = ("the quick brown fox jumps over".toList) :=
  (c3_ngram_discard ("the quick brown fox jumps over".toList)
      ("the quick brown fox runs".toList) (by decide) (by decide)).1
    (by decide) (by decide)

/-- C1 counterexample: the claim says one space is inserted only when
neither the transcript's end nor the remainder's start already has
whitespace, but the code checks for the space character only
(`Home.tsx` line 154: `!prev.endsWith(" ")`): merging "world" into a
transcript ending in a newline yields "Hi.\n world" (space inserted), not
"Hi.\nworld" as the claim's whitespace rule requires. -/
theorem c1_space_rule_counterexample :
    mergeFragment ("Hi.\n".toList) ("world".toList) = ("Hi.\n world".toList)
    ∧ ("Hi.\n world".toList : List Char) ≠ ("Hi.\nworld".toList) := by
  constructor
  · decide
  · decide

/-- C1 (amended): for a non-empty transcript and a fragment that survives
both discard stages, the merge computes the longest case-insensitive overlap
of length at least 5 between a suffix of the 500-character tail and a prefix
of the fragment (conjuncts 1–2: `bestOverlap` is a maximal such length, or 0
when none exists), appends only the trimmed non-overlapping remainder, and
inserts exactly one space unless the transcript already ends with a space
character (other whitespace such as a trailing newline does not suppress the
space) or the remainder starts with a space. -/
theorem c1_overlap_merge (prev frag newText tl il : List Char) (b : Nat)
    (hnt : newText = trimStr frag)
    (htl : tl = lowerStr (takeLast 500 prev))
    (hil : il = lowerStr newText)
    (hb : b = bestOverlap tl il)
    (hprev : prev ≠ []) (hnew : newText ≠ [])
    (hnc : containsSub il tl = false)
    (hng : ¬(3 ≤ (wordsOf il).length ∧ 0 < (ngrams3 (wordsOf il)).length ∧
        (ngrams3 (wordsOf il)).length < 2 * matchedCount tl (ngrams3 (wordsOf il)))) :
    (∀ l, l ≤ min tl.length il.length → 5 ≤ l →
        (takeLast l tl).isPrefixOf il = true → l ≤ b)
    ∧ (b = 0 ∨ (5 ≤ b ∧ b ≤ min tl.length il.length ∧ (takeLast b tl).isPrefixOf il = true))
    ∧ mergeFragment prev frag =
        (let unique := if 0 < b then trimStr (newText.drop b) else newText
         if unique = [] then prev
         else if prev.getLastD '_' ≠ ' ' ∧ unique.headD '_' ≠ ' ' then prev ++ ' ' :: unique
         else prev ++ unique) := by
  subst hnt htl hil hb
  refine ⟨?_, ?_, ?_⟩
  · intro l h1 h2 h3
    exact pickLast_ge _ _ l h1 (by simp [h2, h3])
  · rcases pickLast_zero_or
        (fun len => decide (5 ≤ len) &&
          (takeLast len (lowerStr (takeLast 500 prev))).isPrefixOf (lowerStr (trimStr frag)))
        (min (lowerStr (takeLast 500 prev)).length (lowerStr (trimStr frag)).length)
      with h | ⟨h1, h2⟩
    · left; exact h
    · right
      simp only [Bool.and_eq_true, decide_eq_true_eq] at h1
      exact ⟨h1.1, h2, h1.2⟩
  · unfold mergeFragment
    rw [if_neg hnew, if_neg hprev, if_neg (by simp [hnc]), if_neg hng]
    rfl

/-- C1 witness: the spec's own example — fragment "brown fox jumps" into a
transcript ending "the quick brown fox" yields
"the quick brown fox jumps" (overlap "brown fox" not duplicated). -/
theorem c1_overlap_merge_witness :
    mergeFragment ("the quick brown fox".toList) ("brown fox jumps".toList)
      = ("the quick brown fox jumps".toList) :=
  (c1_overlap_merge ("the quick brown fox".toList) ("brown fox jumps".toList)
      (trimStr ("brown fox jumps".toList))
      (lowerStr (takeLast 500 ("the quick brown fox".toList)))
      (lowerStr (trimStr ("brown fox jumps".toList)))
      (bestOverlap (lowerStr (takeLast 500 ("the quick brown fox".toList)))
        (lowerStr (trimStr ("brown fox jumps".toList))))
      rfl rfl rfl rfl (by decide) (by decide) (by decide) (by decide)).2.2.trans
    (by decide)

/-- C10: the merge is append-only: the result is the previous transcript
unchanged, or the previous transcript followed by at most one inserted space
and a non-empty string; hence the previous transcript is always a prefix of
the result and the length never decreases. -/
theorem c10_merge_append_only (prev frag : List Char) :
    (∃ t, mergeFragment prev frag = prev ++ t)
    ∧ prev.length ≤ (mergeFragment prev frag).length
    ∧ (mergeFragment prev frag = prev ∨
        ∃ u, u ≠ [] ∧
          (mergeFragment prev frag = prev ++ u ∨
            mergeFragment prev frag = prev ++ ' ' :: u)) := by
  rcases mergeFragment_shape prev frag with h | ⟨u, hu, h | h⟩
  · exact ⟨⟨[], by simp [h]⟩, by simp [h], Or.inl h⟩
  · exact ⟨⟨u, h⟩, by simp [h], Or.inr ⟨u, hu, Or.inl h⟩⟩
  · exact ⟨⟨' ' :: u, h⟩, by simp [h], Or.inr ⟨u, hu, Or.inr h⟩⟩

/-! ### Claims about the clarify race guard -/

/-- Every sentence ending is within the text. -/
theorem sentenceEndings_le (l : List Char) : ∀ x ∈ sentenceEndings l, x ≤ l.length := by
  intro x hx
  unfold sentenceEndings at hx
  simp only [List.mem_map, List.mem_filter, List.mem_range] at hx
  obtain ⟨i, ⟨hi, -⟩, rfl⟩ := hx
  omega

/-- Indexing into the sentence endings (with default `0`) stays within the
text. -/
theorem sentenceEndings_getD_le (l : List Char) (i : Nat) :
    (sentenceEndings l).getD i 0 ≤ l.length := by
  rw [List.getD_eq_getElem?_getD]
  rcases Nat.lt_or_ge i (sentenceEndings l).length with h | h
  · rw [List.getElem?_eq_getElem h]
    exact sentenceEndings_le l _ (List.getElem_mem h)
  · rw [List.getElem?_eq_none h]
    exact Nat.zero_le _

/-- A slice below the length of `s` ignores anything appended after `s`. -/
theorem sliceStr_append (s t : List Char) (a b : Nat) (h : b ≤ s.length) :
    sliceStr (s ++ t) a b = sliceStr s a b := by
  unfold sliceStr
  rw [List.take_append_of_le_length h]

/-- What a successful clarify snapshot provides: the range starts at the
cursor, ends within the transcript, and `textToSend` is the trimmed content
of exactly that range. -/
theorem clarifySnapshot_range (snap : List Char) (u count a b : Nat) (t : List Char)
    (h : clarifySnapshot snap u count = some (a, b, t)) :
    a = u ∧ b ≤ snap.length ∧ t = trimStr (sliceStr snap a b) ∧ t ≠ [] := by
  simp only [clarifySnapshot] at h
  split at h
  · exact absurd h (by simp)
  · split at h
    next => exact absurd h (by simp)
    next hne =>
      obtain ⟨rfl, rfl, rfl⟩ := by exact Option.some_injective _ h
      set e := (sentenceEndings (snap.drop u)).getD (count - 1) 0 with he
      have hle : e ≤ (snap.drop u).length := sentenceEndings_getD_le _ _
      have hslice : sliceStr snap u (u + e) = (snap.drop u).take e := by
        unfold sliceStr
        rw [List.drop_take]
        congr 1
        omega
      have he1 : 1 ≤ e := by
        by_contra h0
        have : e = 0 := by omega
        rw [this] at hne
        simp [trimStr] at hne
      rw [List.length_drop] at hle
      exact ⟨rfl, by omega, by rw [hslice], hne⟩

/-- C4 counterexample: the guard compares trimmed content, not the exact
byte range.  A clarify snapshot of `"A. Hi."` (cursor 2, one sentence) takes
range `[2, 6)` with text "Hi.".  After a clear and two merges the transcript
is `"A Hi. x"`, whose bytes in `[2, 6)` are `"Hi. "` — different from the
snapshot's `" Hi."` — yet the trimmed contents agree, so the code applies
the replacement instead of discarding it as the claim requires.  The last
two conjuncts show both transcripts are reachable via merges. -/
theorem c4_clarify_guard_counterexample :
    clarifySnapshot ("A. Hi.".toList) 2 1 = some (2, 6, ("Hi.".toList))
    ∧ sliceStr ("A Hi. x".toList) 2 6 ≠ sliceStr ("A. Hi.".toList) 2 6
    ∧ clarifyApply ("A Hi. x".toList) 2 6 ("Hi.".toList) ("Hey.".toList)
        = (("A Hey.x".toList), some 6)
    ∧ mergeFragment (mergeFragment [] ("A.".toList)) ("Hi.".toList) = ("A. Hi.".toList)
    ∧ mergeFragment (mergeFragment (mergeFragment [] ("A".toList)) ("Hi.".toList))
        ("x".toList) = ("A Hi. x".toList) := by
  refine ⟨by decide, by decide, by decide, by decide, by decide⟩

/-- C4 (amended): when a clarify snapshot of `snap` yields range `[a, b)`
and text `t`, the response-time updater applies the replacement and advances
the cursor to the end of the replacement if and only if the trimmed content
of the current transcript at `[a, b)` equals `t` (exact byte equality is not
required); any change altering the trimmed content causes the result to be
discarded with transcript and cursor untouched.  Concurrent merges are
append-only and never change the bytes in `[a, b)`, so after any concurrent
merge the replacement still applies, and a byte-identical range always
passes the guard. -/
theorem c4_clarify_guard (snap : List Char) (u count a b : Nat) (t clarified : List Char)
    (hsnap : clarifySnapshot snap u count = some (a, b, t)) :
    (∀ cur, trimStr (sliceStr cur a b) = t →
        clarifyApply cur a b t clarified
          = (cur.take a ++ clarified ++ cur.drop b,
             some ((cur.take a ++ clarified).length)))
    ∧ (∀ cur, trimStr (sliceStr cur a b) ≠ t →
        clarifyApply cur a b t clarified = (cur, none))
    ∧ (∀ frag, sliceStr (mergeFragment snap frag) a b = sliceStr snap a b)
    ∧ (∀ cur, sliceStr cur a b = sliceStr snap a b →
        clarifyApply cur a b t clarified
          = (cur.take a ++ clarified ++ cur.drop b,
             some ((cur.take a ++ clarified).length))) := by
  obtain ⟨-, hb, ht, -⟩ := clarifySnapshot_range snap u count a b t hsnap
  have happly : ∀ cur, trimStr (sliceStr cur a b) = t →
      clarifyApply cur a b t clarified
        = (cur.take a ++ clarified ++ cur.drop b,
           some ((cur.take a ++ clarified).length)) := by
    intro cur h
    unfold clarifyApply
    rw [if_neg (not_not_intro h)]
  refine ⟨happly, ?_, ?_, ?_⟩
  · intro cur h
    unfold clarifyApply
    rw [if_pos h]
  · intro frag
    rcases mergeFragment_shape snap frag with h | ⟨v, -, h | h⟩ <;> rw [h]
    · exact sliceStr_append snap v a b hb
    · exact sliceStr_append snap (' ' :: v) a b hb
  · intro cur h
    exact happly cur (by rw [h, ← ht])

/-- C4 witness: applying the amended theorem at the concrete snapshot of
`"A. Hi."`: the region is unchanged, so the replacement is applied and the
cursor advances to the end of the replacement. -/
theorem c4_clarify_guard_witness :
    clarifyApply ("A. Hi.".toList) 2 6 ("Hi.".toList) ("Hey.".toList)
      = (("A.Hey.".toList), some 6) :=
  ((c4_clarify_guard ("A. Hi.".toList) 2 1 2 6 ("Hi.".toList) ("Hey.".toList)
      (by decide)).1 ("A. Hi.".toList) (by decide)).trans (by decide)

/-! ### The WAV encoder (`audio-recorder.ts` lines 3–36)

Float samples are modelled as exact rationals; JavaScript `DataView.setInt16`
truncates its argument toward zero, modelled by `truncQ`. -/

/-- Truncation toward zero of a rational (JS `ToIntegerOrInfinity` as used
by `setInt16`). -/
def truncQ (q : ℚ) : ℤ := q.num.tdiv q.den

/-- `audio-recorder.ts` lines 30–31: clamp to `[-1, 1]`, then
`s < 0 ? s * 0x8000 : s * 0x7fff`, truncated to a 16-bit signed value. -/
def sampleToI16 (x : ℚ) : ℤ :=
  let s := max (-1 : ℚ) (min 1 x)
  if s < 0 then truncQ (s * 32768) else truncQ (s * 32767)

/-- The 16-bit two's-complement bit pattern stored for a sample. -/
def sampleBits (x : ℚ) : Nat := ((sampleToI16 x) % 65536).toNat

/-- Little-endian bytes of a 16-bit value (`DataView.setUint16 _ _ true`). -/
def u16le (n : Nat) : List Nat := [n % 256, n / 256 % 256]

/-- Little-endian bytes of a 32-bit value (`DataView.setUint32 _ _ true`). -/
def u32le (n : Nat) : List Nat :=
  [n % 256, n / 256 % 256, n / 65536 % 256, n / 16777216 % 256]

/-- The 44-byte WAV header written at offsets 0–43
(`audio-recorder.ts` lines 14–26): "RIFF", riff size `36 + 2N`, "WAVE",
"fmt ", fmt size 16, PCM format 1, mono 1, sample rate, byte rate, block
align 2, bits 16, "data", data size `2N`. -/
def wavHeader (numSamples rate : Nat) : List Nat :=
  [82, 73, 70, 70] ++ u32le (36 + numSamples * 2) ++ [87, 65, 86, 69]
    ++ [102, 109, 116, 32] ++ u32le 16 ++ u16le 1 ++ u16le 1 ++ u32le rate
    ++ u32le (rate * 2) ++ u16le 2 ++ u16le 16 ++ [100, 97, 116, 97]
    ++ u32le (numSamples * 2)

/-- `encodeWav` (`audio-recorder.ts` lines 3–36): header followed by the
16-bit little-endian samples at offset 44. -/
def encodeWav (samples : List ℚ) (rate : Nat) : List Nat :=
  wavHeader samples.length rate ++ (samples.map (fun x => u16le (sampleBits x))).flatten

/-- Read back a little-endian 32-bit field at a byte offset. -/
def readU32LE (bs : List Nat) (off : Nat) : Nat :=
  bs.getD off 0 + 256 * bs.getD (off + 1) 0 + 65536 * bs.getD (off + 2) 0
    + 16777216 * bs.getD (off + 3) 0

theorem wavHeader_length (n r : Nat) : (wavHeader n r).length = 44 := by
  simp [wavHeader, u32le, u16le]

theorem sampleBytes_length (samples : List ℚ) :
    ((samples.map (fun x => u16le (sampleBits x))).flatten).length
      = 2 * samples.length := by
  induction samples with
  | nil => rfl
  | cons a l ih =>
      rw [List.map_cons, List.flatten_cons, List.length_append, ih]
      simp only [u16le, List.length_cons, List.length_nil]
      omega

/-- C5: the encoded buffer of an `N`-sample array is exactly `44 + 2N` bytes,
and (whenever the fields do not overflow their 32 bits, which holds for every
realizable chunk) the declared RIFF chunk size at offset 4 is `36 + 2N` and
the declared data-section length at offset 40 is `2N` — the declared
container lengths equal the actual payload length. -/
theorem c5_encoder_length_fields (samples : List ℚ) (rate : Nat) :
    (encodeWav samples rate).length = 44 + 2 * samples.length
    ∧ (36 + 2 * samples.length < 4294967296 →
        readU32LE (encodeWav samples rate) 4 = 36 + 2 * samples.length
        ∧ readU32LE (encodeWav samples rate) 40 = 2 * samples.length) := by
  refine ⟨?_, fun h => ⟨?_, ?_⟩⟩
  · rw [encodeWav, List.length_append, wavHeader_length, sampleBytes_length]
  · simp only [encodeWav, wavHeader, u32le, u16le, List.cons_append, List.nil_append,
      readU32LE, List.getD_cons_succ, List.getD_cons_zero]
    omega
  · simp only [encodeWav, wavHeader, u32le, u16le, List.cons_append, List.nil_append,
      readU32LE, List.getD_cons_succ, List.getD_cons_zero]
    omega

/-- C5 witness: a two-sample buffer is 48 bytes with declared sizes 40
and 4. -/
theorem c5_encoder_length_fields_witness :
    (encodeWav [1, -1/2] 16000).length = 48
    ∧ readU32LE (encodeWav [1, -1/2] 16000) 4 = 40
    ∧ readU32LE (encodeWav [1, -1/2] 16000) 40 = 4 :=
  ⟨(c5_encoder_length_fields [1, -1/2] 16000).1.trans (by norm_num),
   ((c5_encoder_length_fields [1, -1/2] 16000).2 (by norm_num)).1.trans (by norm_num),
   ((c5_encoder_length_fields [1, -1/2] 16000).2 (by norm_num)).2.trans (by norm_num)⟩

/-- Casting an integer to `ℚ` and truncating gives it back. -/
theorem truncQ_intCast (n : ℤ) : truncQ (n : ℚ) = n := by
  simp [truncQ, Rat.num_intCast, Rat.den_intCast, Int.tdiv_one]

/-- The sample conversion as the spec words it: clamp to `[-1, 1]` first,
then scale non-negative samples by 32767 and negative samples by 32768. -/
def specSampleConv (x : ℚ) : ℤ :=
  let c := max (-1 : ℚ) (min 1 x)
  if 0 ≤ c then truncQ (c * 32767) else truncQ (c * 32768)

theorem flatten_pairs_drop (f : ℚ → Nat) :
    ∀ (l : List ℚ) (i : Nat), i < l.length →
      (((l.map (fun x => u16le (f x))).flatten).drop (2 * i)).take 2
        = u16le (f (l.getD i 0))
  | [], i, h => absurd h (by simp)
  | a :: l, 0, _ => by simp [u16le]
  | a :: l, i + 1, h => by
      rw [List.map_cons, List.flatten_cons, List.getD_cons_succ]
      have h2 : u16le (f a) ++ (l.map (fun x => u16le (f x))).flatten
          = (f a % 256) :: (f a / 256 % 256) :: (l.map (fun x => u16le (f x))).flatten := by
        simp [u16le]
      rw [h2, show 2 * (i + 1) = 2 * i + 1 + 1 from by omega,
        List.drop_succ_cons, List.drop_succ_cons]
      exact flatten_pairs_drop f l i (by simpa using h)

/-- C6: sample conversion clamps first and scales asymmetrically —
`sampleToI16` agrees with the spec-side description `specSampleConv`
(non-negative ×32767, negative ×32768 after clamping), `-1` maps to `-32768`,
`1` maps to `32767`, and the two bytes at offset `44 + 2i` of the encoded
buffer are the little-endian 16-bit two's-complement encoding of sample
`i`'s converted value. -/
theorem c6_sample_conversion (x : ℚ) (samples : List ℚ) (rate i : Nat)
    (h : i < samples.length) :
    sampleToI16 x = specSampleConv x
    ∧ sampleToI16 (-1) = -32768
    ∧ sampleToI16 1 = 32767
    ∧ ((encodeWav samples rate).drop (44 + 2 * i)).take 2
        = u16le (sampleBits (samples.getD i 0)) := by
  refine ⟨?_, ?_, ?_, ?_⟩
  · unfold sampleToI16 specSampleConv
    rcases lt_or_ge (max (-1 : ℚ) (min 1 x)) 0 with hc | hc
    · rw [if_pos hc, if_neg (not_le.mpr hc)]
    · rw [if_neg (not_lt.mpr hc), if_pos hc]
  · unfold sampleToI16
    rw [min_eq_right (by norm_num : (-1:ℚ) ≤ 1), max_self,
      if_pos (by norm_num : (-1:ℚ) < 0),
      show (-1 : ℚ) * 32768 = ((-32768 : ℤ) : ℚ) by norm_num, truncQ_intCast]
  · unfold sampleToI16
    rw [min_self, max_eq_right (by norm_num : (-1:ℚ) ≤ 1),
      if_neg (by norm_num : ¬ (1:ℚ) < 0),
      show (1 : ℚ) * 32767 = ((32767 : ℤ) : ℚ) by norm_num, truncQ_intCast]
  · rw [encodeWav, show 44 + 2 * i = (wavHeader samples.length rate).length + 2 * i from by
      rw [wavHeader_length], List.drop_append]
    exact flatten_pairs_drop (fun x => sampleBits x) samples i h

/-- C6 witness: in a two-sample buffer `[1, -1]`, the bytes of sample 1 are
`[0, 128]`, the little-endian pattern `0x8000` of `-32768`. -/
theorem c6_sample_conversion_witness :
    ((encodeWav [1, -1] 16000).drop 46).take 2 = [0, 128] := by
  have h := c6_sample_conversion (-1) [1, -1] 16000 1 (by norm_num)
  have hb : sampleBits (-1) = 32768 := by rw [sampleBits, h.2.1]; decide
  have h2 := h.2.2.2
  simp only [List.getD_cons_succ, List.getD_cons_zero] at h2
  rw [hb] at h2
  exact h2.trans (by decide)

/-! ### The silence gate (`audio-recorder.ts` lines 99–127) -/

/-- `audio-recorder.ts` lines 111–114: the sum of squared samples. -/
def sumSq (l : List ℚ) : ℚ := l.foldl (fun acc x => acc + x * x) 0

/-- The mean of squared samples, `sumSquares / merged.length`
(line 115, inside the square root). -/
def meanSq (l : List ℚ) : ℚ := sumSq l / (l.length : ℚ)

/-- `audio-recorder.ts` lines 115–116: `rms = sqrt(sumSquares / length)`;
`isSilent = rms < silenceThreshold`.  Encoded without the square root by
comparing the mean square against the squared threshold (equivalent for a
positive threshold by monotonicity of the square root; proved as C7). -/
def isSilentChunk (thr : ℚ) (samples : List ℚ) : Bool :=
  decide (meanSq samples < thr * thr)

/-- The recorder state relevant to `flush`: the buffered frames and the last
reported silence state (`this.chunks`, `this.lastSilentState`). -/
structure RecState where
  buf : List (List ℚ)
  lastSilent : Option Bool

/-- One flush outcome: the successor state, the encoded chunk delivered to
`onChunk` (if any), and the silence notification delivered to
`onSilenceChange` (if any). -/
structure FlushResult where
  state : RecState
  emitted : Option (List Nat)
  notified : Option Bool

/-- `ChunkedAudioRecorder.flush` (`audio-recorder.ts` lines 99–127), with the
`onSilenceChange` callback present as wired up by `Home.tsx`: return early on
an empty buffer; concatenate the frames; classify; notify exactly when the
classification differs from `lastSilentState` (updating it); drop silent
chunks; otherwise encode and deliver. -/
def flush (thr : ℚ) (rate : Nat) (st : RecState) : FlushResult :=
  if st.buf = [] then ⟨st, none, none⟩
  else
    let merged := st.buf.flatten
    let silent := isSilentChunk thr merged
    let notified := if st.lastSilent ≠ some silent then some silent else none
    if silent then ⟨⟨[], some silent⟩, none, notified⟩
    else ⟨⟨[], some silent⟩, some (encodeWav merged rate), notified⟩

/-- Explicit value of `flush` on a non-empty buffer. -/
theorem flush_eq (thr : ℚ) (rate : Nat) (st : RecState) (hbuf : st.buf ≠ []) :
    flush thr rate st =
      ⟨⟨[], some (isSilentChunk thr st.buf.flatten)⟩,
       if isSilentChunk thr st.buf.flatten then none
         else some (encodeWav st.buf.flatten rate),
       if st.lastSilent ≠ some (isSilentChunk thr st.buf.flatten)
         then some (isSilentChunk thr st.buf.flatten) else none⟩ := by
  simp only [flush]
  rw [if_neg hbuf]
  by_cases h : isSilentChunk thr st.buf.flatten = true
  · rw [if_pos h, if_pos h]
  · rw [if_neg h, if_neg h]

/-- C7: a flushed non-empty chunk is classified silent exactly when
`sqrt(mean(sample²))` is strictly below the (positive) threshold, and a
silent chunk is never encoded or delivered to `onChunk`, while an active
chunk is delivered as its WAV encoding. -/
theorem c7_silence_gate (st : RecState) (thr : ℚ) (rate : Nat)
    (hthr : 0 < thr) (hne : st.buf.flatten ≠ []) :
    (isSilentChunk thr st.buf.flatten = true ↔
      Real.sqrt ((meanSq st.buf.flatten : ℚ) : ℝ) < ((thr : ℚ) : ℝ))
    ∧ (isSilentChunk thr st.buf.flatten = true → (flush thr rate st).emitted = none)
    ∧ (isSilentChunk thr st.buf.flatten = false →
        (flush thr rate st).emitted = some (encodeWav st.buf.flatten rate)) := by
  have hbuf : st.buf ≠ [] := by
    intro h
    rw [h] at hne
    exact hne rfl
  refine ⟨?_, ?_, ?_⟩
  · rw [isSilentChunk, decide_eq_true_eq,
      Real.sqrt_lt' (by exact_mod_cast hthr), pow_two]
    constructor
    · intro h; exact_mod_cast h
    · intro h; exact_mod_cast h
  · intro h
    rw [flush_eq thr rate st hbuf]
    simp [h]
  · intro h
    rw [flush_eq thr rate st hbuf]
    simp [h]

/-- C7 witness: a single zero chunk under threshold 1 is silent and nothing
is emitted. -/
theorem c7_silence_gate_witness :
    (flush 1 16000 ⟨[[0]], none⟩).emitted = none := by
  have hs : isSilentChunk 1 (([[0]] : List (List ℚ)).flatten) = true := by
    simp [isSilentChunk, meanSq, sumSq]
  exact (c7_silence_gate ⟨[[0]], none⟩ 1 16000 (by norm_num) (by simp)).2.1 hs

/-- Iterated flushes, one per buffered chunk: the notifications emitted in
order, threading `lastSilentState` through (`audio-recorder.ts`
lines 116–121 across successive timer-driven flushes). -/
def silenceRun (thr : ℚ) (rate : Nat) : Option Bool → List (List ℚ) → List (Option Bool)
  | _, [] => []
  | last, c :: rest =>
      (flush thr rate ⟨[c], last⟩).notified ::
        silenceRun thr rate (flush thr rate ⟨[c], last⟩).state.lastSilent rest

/-- Value of a one-chunk flush, with the buffer `[c]` flattened. -/
theorem flush_single (thr : ℚ) (rate : Nat) (c : List ℚ) (last : Option Bool) :
    flush thr rate ⟨[c], last⟩ =
      ⟨⟨[], some (isSilentChunk thr c)⟩,
       if isSilentChunk thr c then none else some (encodeWav c rate),
       if last ≠ some (isSilentChunk thr c) then some (isSilentChunk thr c) else none⟩ := by
  have h := flush_eq thr rate ⟨[c], last⟩ (by simp)
  simpa using h

/-- The silence state threaded into the rest of a run is the classification
of the chunk just flushed. -/
theorem flush_single_state (thr : ℚ) (rate : Nat) (c : List ℚ) (last : Option Bool) :
    (flush thr rate ⟨[c], last⟩).state.lastSilent = some (isSilentChunk thr c) := by
  rw [flush_single]

/-- From the second chunk of a run on, a notification appears exactly when
the classification differs from the previous chunk's. -/
theorem silenceRun_flips (thr : ℚ) (rate : Nat) :
    ∀ (chunks : List (List ℚ)) (last : Option Bool) (i : Nat), i + 1 < chunks.length →
      (silenceRun thr rate last chunks).getD (i + 1) none
        = (if isSilentChunk thr (chunks.getD (i + 1) [])
              = isSilentChunk thr (chunks.getD i [])
           then none
           else some (isSilentChunk thr (chunks.getD (i + 1) [])))
  | [], _, i, h => absurd h (by simp)
  | [c], _, i, h => absurd h (by simp)
  | c :: d :: rest, last, 0, _ => by
      rw [silenceRun, List.getD_cons_succ, flush_single_state, silenceRun,
        List.getD_cons_zero]
      have hnot : (flush thr rate ⟨[d], some (isSilentChunk thr c)⟩).notified
          = (if some (isSilentChunk thr c) ≠ some (isSilentChunk thr d)
             then some (isSilentChunk thr d) else none) := by rw [flush_single]
      rw [hnot, List.getD_cons_succ, List.getD_cons_zero, List.getD_cons_zero]
      by_cases he : isSilentChunk thr d = isSilentChunk thr c
      · rw [if_neg (by simp [he]), if_pos he]
      · rw [if_pos (by simpa using Ne.symm he), if_neg he]
  | c :: d :: rest, last, j + 1, h => by
      rw [silenceRun, List.getD_cons_succ, flush_single_state,
        List.getD_cons_succ, List.getD_cons_succ]
      exact silenceRun_flips thr rate (d :: rest) (some (isSilentChunk thr c)) j
        (by simpa using Nat.lt_of_succ_lt_succ h)

/-- C8: over every sequence of flushed chunks there is exactly one
notification slot per chunk, and from the second chunk on the notification
fires exactly when the chunk's silence classification differs from the
previous chunk's, and never when it is unchanged. -/
theorem c8_silence_notification (thr : ℚ) (rate : Nat) (last : Option Bool)
    (chunks : List (List ℚ)) :
    (silenceRun thr rate last chunks).length = chunks.length
    ∧ ∀ i, i + 1 < chunks.length →
        (silenceRun thr rate last chunks).getD (i + 1) none
          = (if isSilentChunk thr (chunks.getD (i + 1) [])
                = isSilentChunk thr (chunks.getD i [])
             then none
             else some (isSilentChunk thr (chunks.getD (i + 1) []))) := by
  constructor
  · induction chunks generalizing last with
    | nil => rfl
    | cons c rest ih => simp [silenceRun, ih]
  · intro i h
    exact silenceRun_flips thr rate chunks last i h

/-- C8 witness: with chunks `[[0], [2], [2]]` under threshold 1, the third
flush repeats the second chunk's classification, so no notification fires at
position 2. -/
theorem c8_silence_notification_witness :
    (silenceRun 1 16000 none [[0], [2], [2]]).getD 2 none = none := by
  have h := (c8_silence_notification 1 16000 none [[0], [2], [2]]).2 1 (by norm_num)
  simp only [List.getD_cons_succ, List.getD_cons_zero] at h
  rw [h, if_pos trivial]

/-! ### Settings updates (`SettingsDialog.tsx`) -/

/-- The two `TranscriptionSettings` fields involved in the
translation/clarify invariant (`SettingsDialog.tsx` lines 30 and 34). -/
structure ClientSettings where
  translatorEnabled : Bool
  clarifyEnabled : Bool
deriving DecidableEq

/-- A partial update as passed to `update` (`SettingsDialog.tsx` line 116):
each field either absent or set. -/
structure SettingsPatch where
  translatorEnabled : Option Bool
  clarifyEnabled : Option Bool
deriving DecidableEq

/-- `SettingsDialog.update` (`SettingsDialog.tsx` lines 116–122):
spread the patch over the settings, then force `clarifyEnabled` when the
patch turns `translatorEnabled` on (`partial.translatorEnabled &&
!settings.translatorEnabled`). -/
def applySettingsUpdate (s : ClientSettings) (p : SettingsPatch) : ClientSettings :=
  let next : ClientSettings :=
    ⟨p.translatorEnabled.getD s.translatorEnabled,
     p.clarifyEnabled.getD s.clarifyEnabled⟩
  if p.translatorEnabled.getD false && ! s.translatorEnabled then
    { next with clarifyEnabled := true }
  else next

/-- The invariant: translation enabled implies clarify enabled
(spec §3 `Settings`). -/
def settingsInv (s : ClientSettings) : Prop :=
  s.translatorEnabled = true → s.clarifyEnabled = true

/-- Patches the dialog can emit: the clarify switch is disabled while the
translator is enabled (`SettingsDialog.tsx` line 324:
`disabled={settings.translatorEnabled}`), so a patch touching
`clarifyEnabled` can only be issued when the translator is off. -/
def uiPermitted (s : ClientSettings) (p : SettingsPatch) : Prop :=
  p.clarifyEnabled ≠ none → s.translatorEnabled = false

/-- `DEFAULT_SETTINGS` (`SettingsDialog.tsx` lines 62 and 66): clarify and
translator both start disabled. -/
def defaultClientSettings : ClientSettings := ⟨false, false⟩

/-- States reachable from the defaults through dialog updates. -/
inductive ReachableSettings : ClientSettings → Prop where
  | init : ReachableSettings defaultClientSettings
  | step {s : ClientSettings} {p : SettingsPatch} :
      ReachableSettings s → uiPermitted s p →
      ReachableSettings (applySettingsUpdate s p)

/-- Dialog updates preserve the translation-implies-clarify invariant. -/
theorem settingsInv_preserved (s : ClientSettings) (p : SettingsPatch)
    (hinv : settingsInv s) (hui : uiPermitted s p) :
    settingsInv (applySettingsUpdate s p) := by
  obtain ⟨st, sc⟩ := s
  obtain ⟨pt, pc⟩ := p
  simp only [settingsInv, uiPermitted, applySettingsUpdate] at *
  cases pt with
  | none =>
      cases pc with
      | none => simpa using hinv
      | some b =>
          cases st
          · simp
          · simp at hui
  | some t =>
      cases t
      · cases pc with
        | none =>
            cases st
            · simp
            · simp
        | some b =>
            cases st
            · simp
            · simp at hui
      · cases st
        · simp
        · cases pc with
          | none => simpa using hinv
          | some b => simp at hui

/-- C9: dialog settings updates preserve the invariant that translation
enabled implies clarify enabled; turning the translator on always yields a
record with clarify enabled (even if the same patch tried to clear it); and
every state reachable from the defaults through dialog updates satisfies the
invariant. -/
theorem c9_settings_invariant :
    (∀ s p, settingsInv s → uiPermitted s p → settingsInv (applySettingsUpdate s p))
    ∧ (∀ s p, s.translatorEnabled = false → p.translatorEnabled = some true →
        (applySettingsUpdate s p).clarifyEnabled = true)
    ∧ (∀ s, ReachableSettings s → settingsInv s) := by
  refine ⟨settingsInv_preserved, ?_, ?_⟩
  · intro s p hs hp
    obtain ⟨st, sc⟩ := s
    obtain ⟨pt, pc⟩ := p
    simp only at hs
    subst hs
    simp only at hp
    subst hp
    simp [applySettingsUpdate]
  · intro s h
    induction h with
    | init => intro h; simp [defaultClientSettings] at h
    | step hr hui ih => exact settingsInv_preserved _ _ ih hui

/-- C9 witness: enabling the translator from the defaults forces clarify on,
and the resulting state keeps the invariant. -/
theorem c9_settings_invariant_witness :
    (applySettingsUpdate ⟨false, false⟩ ⟨some true, none⟩).clarifyEnabled = true :=
  c9_settings_invariant.2.1 ⟨false, false⟩ ⟨some true, none⟩ rfl rfl

end LiveScribe
